import Mathlib

/-!
Verification development for the yapf plugin manager
(src/plugin_manager.py).

The Python source is shallowly embedded as executable Lean functions:

* the plugin table `PluginManager._plugins` is an association list from
  plugin id to the plugin's declared dependency list (`PluginTable`);
  Python dict lookups are first-match `List.find?` lookups;
* `PluginManager.dependencies` (the recursive `_resolve` with the shared
  mutable `resolved` / `unresolved` lists) becomes `resolveF` / `resolveGo`,
  which thread the two lists explicitly; Python's unbounded recursion is
  given a fuel parameter, with `ResolveErr.interrupted` standing for fuel
  exhaustion; the fuel actually used (`pm.length + 1`) is proved sufficient;
* the extension-point table `PluginManager._extension_points` maps the id
  of an extension point to the list of contributor callables registered
  against it; a (deterministic, zero-argument) contributor is modelled by
  the iterable it returns, i.e. by a `List α`;
* the service table `PluginManager._services` maps service ids to stored
  values; a Python value that is callable (a zero-argument factory whose
  invocation deterministically yields another value) is modelled by the
  constructor `SVal.thunk`, a non-callable value by `SVal.atom`;
* the discovery loop of `collect_plugins` (the part after the filesystem
  walk: the enable/disable split and the missing-dependency hack) is
  modelled over a list of already-discovered plugin records.
-/

deriving instance DecidableEq for Except

/-! ## Plugin table and the dependency resolver -/

/-- The plugin table: plugin id to declared `depends` list, in discovery
order (Python dict with unique keys, first writer wins via `setdefault`). -/
abbrev PluginTable := List (String × List String)

/-- Dict lookup `self._plugins[id].depends`: first entry whose key is `id`. -/
def findDeps (pm : PluginTable) (id : String) : Option (List String) :=
  (pm.find? (fun p => p.1 == id)).map Prod.snd

/-- Python `id in self._plugins`. -/
def isKey (pm : PluginTable) (id : String) : Bool :=
  (findDeps pm id).isSome

/-- Dependency list of `id`, defaulting to `[]` for unknown ids. -/
def depsOfD (pm : PluginTable) (id : String) : List String :=
  (findDeps pm id).getD []

/-- Errors of `PluginManager.dependencies`.  `missing` and `cyclic` are the
two `PluginError` raises of `_resolve`; `interrupted` is the fuel-exhaustion
marker of the embedding (proved unreachable for the fuel used). -/
inductive ResolveErr where
  | missing (id : String)
  | cyclic (src dst : String)
  | interrupted
deriving DecidableEq

/-- The `for dep in dependencies:` loop body of `_resolve`, parameterised by
`recur`, the recursive call to `_resolve` at one fuel level lower.  State
`(res, unres)` is the shared pair of Python lists `resolved`, `unresolved`.
Checks in source order: membership in `self._plugins`, then `resolved`
(skip), then `unresolved` (cyclic error), otherwise recurse. -/
def resolveGo (pm : PluginTable)
    (recur : String → List String → List String →
      Except ResolveErr (List String × List String))
    (id : String) :
    List String → List String → List String →
      Except ResolveErr (List String × List String)
  | [], res, unres => .ok (res, unres)
  | dep :: rest, res, unres =>
    if isKey pm dep then
      if dep ∈ res then
        resolveGo pm recur id rest res unres
      else if dep ∈ unres then
        .error (.cyclic id dep)
      else
        match recur dep res unres with
        | .error e => .error e
        | .ok (res', unres') => resolveGo pm recur id rest res' unres'
    else
      .error (.missing dep)

/-- `_resolve(id)`: append `id` to `unresolved`, look its record up (a
failed lookup is `Missing plugin`), run the dependency loop, then append
`id` to `resolved` and remove (the first occurrence of) `id` from
`unresolved`. -/
def resolveF (pm : PluginTable) :
    Nat → String → List String → List String →
      Except ResolveErr (List String × List String)
  | 0 => fun _ _ _ => .error .interrupted
  | fuel + 1 => fun id res unres =>
    match findDeps pm id with
    | none => .error (.missing id)
    | some deps =>
      match resolveGo pm (resolveF pm fuel) id deps res (unres ++ [id]) with
      | .error e => .error e
      | .ok (res1, unres1) => .ok (res1 ++ [id], unres1.erase id)

/-- `PluginManager.dependencies(id, include_self)`: fresh `resolved` and
`unresolved` lists, run `_resolve`, return `resolved` (or all but its last
element).  The fuel bound `pm.length + 1` dominates the recursion depth. -/
def dependencies (pm : PluginTable) (id : String) (includeSelf : Bool) :
    Except ResolveErr (List String) :=
  match resolveF pm (pm.length + 1) id [] [] with
  | .error e => .error e
  | .ok (res, _) => .ok (if includeSelf then res else res.dropLast)

/-- Inner loop of the `plugins` property's `sort()`: append each element of
a dependency list that is not already in the accumulated global order. -/
def mergeInto (acc l : List String) : List String :=
  l.foldl (fun a x => if x ∈ a then a else a ++ [x]) acc

/-- The `for id in plugins:` loop of `sort()`: resolve each table key in
turn and merge; a `PluginError` raised by `dependencies` propagates. -/
def loadOrderGo (pm : PluginTable) (acc : List String) :
    List String → Except ResolveErr (List String)
  | [] => .ok acc
  | k :: ks =>
    match dependencies pm k true with
    | .error e => .error e
    | .ok l => loadOrderGo pm (mergeInto acc l) ks

/-- The global load order computed by `sort()` in the `plugins` property:
iterate over the plugin-table keys, merging each `dependencies(id)` list. -/
def loadOrder (pm : PluginTable) : Except ResolveErr (List String) :=
  loadOrderGo pm [] (pm.map Prod.fst)

/-- A Python local function object: `def sort():` inside the `plugins`
property body creates a new function object on every property access, with
an empty attribute dictionary, so the `_sorted_plugins` attribute is absent
on entry to every access. -/
structure SortFunctionObject where
  sortedAttr : Option (List String)

/-- The freshly created `sort` function object of one property access. -/
def newSortFunctionObject : SortFunctionObject :=
  { sortedAttr := none }

/-- One access of the `plugins` property: create the local `sort` function
object, test `hasattr(sort, '_sorted_plugins')`, compute `sort()` when the
attribute is absent.  Returns the produced order and whether `sort()` was
invoked (i.e. whether the order was recomputed on this access). -/
def pluginsAccess (pm : PluginTable) : Except ResolveErr (List String) × Bool :=
  let sortObj := newSortFunctionObject
  match sortObj.sortedAttr with
  | some l => (.ok l, false)
  | none => (loadOrder pm, true)

/-! ## Extension points -/

/-- The extension-point table `PluginManager._extension_points`: extension
point id to the registered contributor callables, in registration order.  A
contributor is a deterministic zero-argument callable returning an
iterable; it is modelled by the list it returns.  (The `TypeError` raised
by `ExtensionPoint.__get__` for a non-iterable return value is outside this
model: every modelled contributor returns an iterable.) -/
abbrev ExtTable (α : Type) := List (String × List (List α))

/-- Python dict assignment `t[id] = v`: replace the value of an existing
key in place, otherwise append a new entry. -/
def dictSet {β : Type} (t : List (String × β)) (id : String) (v : β) :
    List (String × β) :=
  if (t.find? (fun p => p.1 == id)).isSome then
    t.map (fun p => if p.1 == id then (id, v) else p)
  else
    t ++ [(id, v)]

/-- `PluginManager.register_extension_point`: unconditionally assigns an
empty contributor list to the extension point's id (lines 236-238; no
duplicate check, no error path). -/
def register_extension_point {α : Type} (t : ExtTable α) (id : String) :
    ExtTable α :=
  dictSet t id []

/-- `extension_points.get(self.id, [])` in `ExtensionPoint.__get__`. -/
def findExtenders {α : Type} (t : ExtTable α) (id : String) :
    List (List α) :=
  ((t.find? (fun p => p.1 == id)).map Prod.snd).getD []

/-- The contribution list built by one execution of `ExtensionPoint.__get__`:
start from `[]` and `extend` with each contributor's result in registration
order. -/
def extGet {α : Type} (t : ExtTable α) (id : String) : List α :=
  (findExtenders t id).foldl (fun acc c => acc ++ c) []

/-- One read of an extension point: `__get__` has no cache field, so its
only inputs are the table and the id.  Returns the contributions together
with the number of contributor invocations the read performs (the loop
calls each registered contributor exactly once). -/
def epRead {α : Type} (t : ExtTable α) (id : String) : List α × Nat :=
  (extGet t id, (findExtenders t id).length)

/-- A trace of `n` successive reads of the same extension point.  The code
keeps no state between reads, so each read is a fresh execution of
`__get__` on the unchanged table. -/
def epReadTrace {α : Type} (t : ExtTable α) (id : String) :
    Nat → List (List α × Nat)
  | 0 => []
  | n + 1 => epRead t id :: epReadTrace t id n

/-! ## Services -/

/-- A Python value stored in the service table.  `thunk v` is a callable
(zero-argument factory) whose invocation returns `v`; `atom n` is a
non-callable service instance. -/
inductive SVal where
  | atom (n : Nat) : SVal
  | thunk (result : SVal) : SVal
deriving DecidableEq

/-- Python `callable(v)`. -/
def SVal.callable : SVal → Bool
  | .thunk _ => true
  | .atom _ => false

/-- The service table `PluginManager._services`. -/
abbrev Services := List (String × SVal)

/-- Errors raised by the service registry. -/
inductive ServiceErr where
  | existing (id : String)
  | notFound (id : String)
deriving DecidableEq

/-- `PluginManager.register_service`: error on an existing id, otherwise
store the value (instance or factory) as given. -/
def register_service (s : Services) (id : String) (v : SVal) :
    Except ServiceErr Services :=
  if (s.find? (fun p => p.1 == id)).isSome then
    .error (.existing id)
  else
    .ok (s ++ [(id, v)])

/-- `PluginManager.get_service`: look the stored value up; when it is
callable, invoke it, store the result over the old entry and return the
freshly stored value; otherwise return it (or `none` for a missing id).
The third component records whether an invocation happened. -/
def get_service (s : Services) (id : String) :
    Option SVal × Services × Bool :=
  match (s.find? (fun p => p.1 == id)).map Prod.snd with
  | some (SVal.thunk r) => (some r, dictSet s id r, true)
  | some v => (some v, s, false)
  | none => (none, s, false)

/-- A trace of `n` successive `get_service(id)` calls: per-call results,
final table, and the total number of invocations of stored callables. -/
def lookupTrace (s : Services) (id : String) :
    Nat → List (Option SVal) × Services × Nat
  | 0 => ([], s, 0)
  | n + 1 =>
    let r := get_service s id
    let t := lookupTrace r.2.1 id n
    (r.1 :: t.1, t.2.1, t.2.2 + (if r.2.2 then 1 else 0))

/-! ## Discovery (collect_plugins) -/

/-- One plugin yielded by a loader during the discovery walk: its declared
id, `depends` list and `enabled` flag, in discovery order. -/
structure DiscoveredPlugin where
  id : String
  depends : List String
  enabled : Bool
deriving DecidableEq

/-- `t.setdefault(id, v)` on a dict: insert only when the key is absent. -/
def setdefaultT {β : Type} (t : List (String × β)) (id : String) (v : β) :
    List (String × β) :=
  if (t.find? (fun p => p.1 == id)).isSome then t else t ++ [(id, v)]

/-- The registration step of the discovery loop (lines 279-286): an enabled
plugin goes into `self._plugins` via `setdefault`; a disabled one is
recorded (by id) in `self.disabled_plugins`. -/
def registerDiscovered (st : PluginTable × List String)
    (p : DiscoveredPlugin) : PluginTable × List String :=
  if p.enabled then
    (setdefaultT st.1 p.id p.depends, st.2)
  else
    (st.1, if p.id ∈ st.2 then st.2 else st.2 ++ [p.id])

/-- Errors escaping `collect_plugins`: a propagated resolver error, or the
`KeyError` of `self._plugins.pop(plugin.id)` on an absent key. -/
inductive CollectErr where
  | resolve (e : ResolveErr)
  | keyError (id : String)
deriving DecidableEq

/-- `collect_plugins` after the filesystem walk, over the flat list of
discovered plugins: run the registration loop, then the missing-dependency
hack (lines 288-296): evaluate `self.plugins` once; on a `PluginError` the
`except` block runs with `plugin` still bound to the *last discovered*
plugin (the stale variable of the discovery loop, since the failed `for`
assigned nothing), pops that id from `self._plugins` (KeyError when absent,
e.g. when the last discovered plugin was disabled) and records it as
disabled; finally `self.plugins` is evaluated again at line 299 and any
error it raises propagates out of the constructor.  Returns the final
enabled table and disabled-id list. -/
def collect_plugins (ps : List DiscoveredPlugin) :
    Except CollectErr (PluginTable × List String) :=
  let st := ps.foldl registerDiscovered ([], [])
  match loadOrder st.1 with
  | .ok _ => .ok st
  | .error _ =>
    match ps.getLast? with
    | none => .ok st
    | some p =>
      if (st.1.find? (fun q => q.1 == p.id)).isSome then
        let tbl := st.1.filter (fun q => ¬(q.1 == p.id))
        let dis := if p.id ∈ st.2 then st.2 else st.2 ++ [p.id]
        match loadOrder tbl with
        | .ok _ => .ok (tbl, dis)
        | .error e => .error (.resolve e)
      else
        .error (.keyError p.id)

/-! ## Specification predicates -/

/-- `x` occurs (at some position) strictly before `y` in `l`. -/
def before (l : List String) (x y : String) : Prop :=
  ∃ i j, ∃ hi : i < l.length, ∃ hj : j < l.length,
    i < j ∧ l.get ⟨i, hi⟩ = x ∧ l.get ⟨j, hj⟩ = y

/-- Every element of `l` at position `n` or later has each of its declared
dependencies at an earlier position of `l`. -/
def TopoSortedFrom (pm : PluginTable) (n : Nat) (l : List String) : Prop :=
  ∀ i, n ≤ i → ∀ hi : i < l.length,
    ∀ d ∈ depsOfD pm (l.get ⟨i, hi⟩),
      ∃ j, j < i ∧ ∃ hj : j < l.length, l.get ⟨j, hj⟩ = d

/-- `a` directly depends on `b`. -/
def depRel (pm : PluginTable) (a b : String) : Prop :=
  b ∈ depsOfD pm a

/-- The dependency graph is a DAG: no id transitively depends on itself. -/
def Acyclic (pm : PluginTable) : Prop :=
  ∀ x, ¬ Relation.TransGen (depRel pm) x x

/-- Every dependency declared anywhere in the table is itself a table key. -/
def AllPresent (pm : PluginTable) : Prop :=
  ∀ p ∈ pm, ∀ d ∈ p.2, isKey pm d = true

/-- The keys of the plugin table, as a finset. -/
def keysFinset (pm : PluginTable) : Finset String :=
  (pm.map Prod.fst).toFinset

/-- Number of table keys not yet touched by the resolution state: the
termination measure of `_resolve`. -/
def freeCard (pm : PluginTable) (res unres : List String) : Nat :=
  ((keysFinset pm) \ (res.toFinset ∪ unres.toFinset)).card


instance allPresentDecidable (pm : PluginTable) : Decidable (AllPresent pm) := by
  unfold AllPresent
  infer_instance

/-- Postcondition of a successful `_resolve(id)` call from state
`(res, unres)`: the result extends `res` by new ids only, restores `unres`,
contains `id` and all of `id`'s declared dependencies, adds only ids that
are keys and were not in-progress, stays duplicate-free, and keeps every
new element after all of its declared dependencies. -/
def ResolveConcl (pm : PluginTable) (id : String)
    (res unres res' unres' : List String) : Prop :=
  (∃ t, res' = res ++ t) ∧ unres' = unres ∧ id ∈ res' ∧
  (∀ d ∈ depsOfD pm id, d ∈ res') ∧
  (∀ y ∈ res', y ∈ res ∨ (y ∉ unres ∧ isKey pm y = true)) ∧
  res'.Nodup ∧ TopoSortedFrom pm res.length res'

/-- The recursive callee of the dependency loop satisfies the `_resolve`
postcondition on success. -/
def RecurSpec (pm : PluginTable)
    (recur : String → List String → List String →
      Except ResolveErr (List String × List String)) : Prop :=
  ∀ id res unres res' unres',
    recur id res unres = .ok (res', unres') →
    res.Nodup → id ∉ res → id ∉ unres →
    ResolveConcl pm id res unres res' unres'

/-- Postcondition of a successful run of the dependency loop. -/
def GoConcl (pm : PluginTable) (deps : List String)
    (res unres res' unres' : List String) : Prop :=
  (∃ t, res' = res ++ t) ∧ unres' = unres ∧
  (∀ d ∈ deps, d ∈ res') ∧
  (∀ y ∈ res', y ∈ res ∨ (y ∉ unres ∧ isKey pm y = true)) ∧
  res'.Nodup ∧ TopoSortedFrom pm res.length res'

/-- The `unresolved` list always forms a chain of direct dependencies. -/
def DepChain (pm : PluginTable) (l : List String) : Prop :=
  l.Chain' (fun a b => depRel pm a b)

/-- witness table: a linear three-plugin chain -/
def pmLinear : PluginTable := [("core", []), ("ext1", ["core"]), ("ext2", ["ext1"])]

def pmSolo : PluginTable := [("A", ["X"])]

/-! ## Dictionary lemmas -/

/-- Lookup after in-place replacement of an existing key. -/
theorem find?_map_setEntry {β : Type} (t : List (String × β)) (id : String) (v : β)
    (h : (t.find? (fun p => p.1 == id)).isSome = true) :
    (t.map (fun p => if p.1 == id then (id, v) else p)).find? (fun p => p.1 == id)
      = some (id, v) := by
  induction t with
  | nil => simp at h
  | cons p t ih =>
    simp only [List.map_cons]
    by_cases hp : (p.1 == id) = true
    · rw [if_pos hp, List.find?_cons_of_pos]
      simp
    · rw [if_neg (by simp [hp]), List.find?_cons_of_neg _ (by simp [hp])]
      rw [List.find?_cons_of_neg _ (by simp [hp])] at h
      exact ih h

/-- After a dict assignment, looking the assigned key up yields exactly the
assigned value. -/
theorem find?_dictSet {β : Type} (t : List (String × β)) (id : String) (v : β) :
    (dictSet t id v).find? (fun p => p.1 == id) = some (id, v) := by
  unfold dictSet
  split
  · rename_i h
    exact find?_map_setEntry t id v h
  · rename_i h
    have hnone : t.find? (fun p => p.1 == id) = none := by
      cases hf : t.find? (fun p => p.1 == id) with
      | none => rfl
      | some q => rw [hf] at h; simp at h
    rw [List.find?_append, hnone]
    simp

/-! ## Service registry theorems (claims C6, C10) -/

/-- Once `get_service` returns a non-callable stored value without touching
the table, every later lookup repeats that exact behaviour. -/
theorem lookupTrace_stable (s : Services) (id : String) (w : SVal)
    (hw : get_service s id = (some w, s, false)) :
    ∀ n, lookupTrace s id n = (List.replicate n (some w), s, 0) := by
  intro n
  induction n with
  | zero => rfl
  | succ n ih => simp [lookupTrace, hw, ih, List.replicate]

/-- C6 (amended): for a service id stored as a zero-argument factory whose
result is not itself callable, `get_service` invokes the factory exactly
once across arbitrarily many lookups; the first lookup stores the factory's
result over the factory and every later lookup returns that same stored
result without any further invocation. -/
theorem C6_factory_memoized (s : Services) (id : String) (r : SVal)
    (hfind : (s.find? (fun p => p.1 == id)).map Prod.snd = some (SVal.thunk r))
    (hr : r.callable = false) (n : Nat) :
    (lookupTrace s id (n + 1)).1 = List.replicate (n + 1) (some r) ∧
    (lookupTrace s id (n + 1)).2.2 = 1 := by
  have h1 : get_service s id = (some r, dictSet s id r, true) := by
    simp [get_service, hfind]
  have h2 : ((dictSet s id r).find? (fun p => p.1 == id)).map Prod.snd = some r := by
    rw [find?_dictSet]
    rfl
  have h3 : get_service (dictSet s id r) id = (some r, dictSet s id r, false) := by
    cases r with
    | atom m => simp [get_service, h2]
    | thunk u => simp [SVal.callable] at hr
  have h4 := lookupTrace_stable _ _ _ h3
  simp [lookupTrace, h1, h4 n, List.replicate]

/-- C6 witness: a factory for the non-callable instance `atom 7`, looked up
three times: every lookup returns `atom 7` and exactly one invocation
happens in total. -/
theorem C6_factory_memoized_witness :
    (lookupTrace [("x", SVal.thunk (SVal.atom 7))] "x" 3).1 =
      List.replicate 3 (some (SVal.atom 7)) ∧
    (lookupTrace [("x", SVal.thunk (SVal.atom 7))] "x" 3).2.2 = 1 :=
  C6_factory_memoized [("x", SVal.thunk (SVal.atom 7))] "x" (SVal.atom 7)
    (by decide) (by decide) 2

/-- C6 counterexample: a factory whose produced instance is itself callable.
Two lookups perform two invocations (the claim allows exactly one), and the
second lookup returns `atom 0`, not the instance `thunk (atom 0)` that the
first lookup stored and returned. -/
theorem C6_counterexample :
    (lookupTrace [("x", SVal.thunk (SVal.thunk (SVal.atom 0)))] "x" 2).2.2 = 2 ∧
    (lookupTrace [("x", SVal.thunk (SVal.thunk (SVal.atom 0)))] "x" 2).1 =
      [some (SVal.thunk (SVal.atom 0)), some (SVal.atom 0)] ∧
    some (SVal.atom 0) ≠ some (SVal.thunk (SVal.atom 0)) := by
  decide

/-- C10: `get_service` invokes any callable stored value and stores the
result — also when the callable was registered as a ready service value
rather than as a factory; when the produced result is itself callable, the
next lookup invokes that result again instead of returning it unchanged. -/
theorem C10_callable_values_reinvoked (id : String) (r : SVal) :
    register_service [] id (SVal.thunk (SVal.thunk r)) =
      .ok [(id, SVal.thunk (SVal.thunk r))] ∧
    get_service [(id, SVal.thunk (SVal.thunk r))] id =
      (some (SVal.thunk r), [(id, SVal.thunk r)], true) ∧
    get_service [(id, SVal.thunk r)] id = (some r, [(id, r)], true) := by
  refine ⟨?_, ?_, ?_⟩ <;>
    simp [register_service, get_service, dictSet, List.find?]

/-! ## Extension-point theorems (claims C3, C4, C5) -/

/-- C4: an extension point whose registered extender list is `[f1, f2]`
with `f1` returning `[a, b]` and `f2` returning `[c]` yields exactly
`[a, b, c]` on a read: both extenders are invoked, in registration order,
and the returned sequences are concatenated preserving their order. -/
theorem C4_extenders_concat_in_order {α : Type} (t : ExtTable α) (id : String)
    (a b c : α) (h : findExtenders t id = [[a, b], [c]]) :
    epRead t id = ([a, b, c], 2) := by
  simp [epRead, extGet, h]

/-- C4 witness: the concrete table registering `[1, 2]` and `[3]`. -/
theorem C4_extenders_concat_in_order_witness :
    epRead [("ep", [[1, 2], [3]])] "ep" = ([1, 2, 3], 2) :=
  C4_extenders_concat_in_order [("ep", [[1, 2], [3]])] "ep" 1 2 3 (by decide)

/-- C3 counterexample: a single registered extender, two reads.  The second
read again performs one extender invocation, although the claim demands
that every read after the first re-invoke no extender. -/
theorem C3_counterexample :
    epReadTrace [("ep", [[5]])] "ep" 2 = [([5], 1), ([5], 1)] ∧ (1 : Nat) ≠ 0 := by
  decide

/-- C3 (amended): `ExtensionPoint.__get__` keeps no cache, so every read of
an extension point re-invokes every registered extender in registration
order and returns a freshly computed concatenation. -/
theorem C3_every_read_recomputes {α : Type} (t : ExtTable α) (id : String) (n : Nat) :
    epReadTrace t id n = List.replicate n (extGet t id, (findExtenders t id).length) := by
  induction n with
  | zero => rfl
  | succ n ih => simp [epReadTrace, epRead, ih, List.replicate]

/-- C5 counterexample: one extender is registered against id "ep"; a second
`register_extension_point` with the same id returns normally (there is no
error path) and the previously registered extender list is replaced by the
empty list, not left intact. -/
theorem C5_counterexample :
    register_extension_point [("ep", [[1]])] "ep" = [("ep", ([] : List (List Nat)))] ∧
    findExtenders (register_extension_point [("ep", [[(1 : Nat)]])] "ep") "ep" = [] := by
  decide

/-- C5 (amended): registering an extension point over any table never
fails and leaves the id with an empty extender list, discarding whatever
extenders were registered against that id before. -/
theorem C5_reregistration_resets {α : Type} (t : ExtTable α) (id : String) :
    findExtenders (register_extension_point t id) id = [] := by
  have h := find?_dictSet t id ([] : List (List α))
  simp [register_extension_point, findExtenders, h]

/-! ## Plugins-property caching (claim C9) and discovery hack (claim C8) -/

/-- C9: every access of the `plugins` property recomputes the global order
by running `sort()`: the cache attribute is set on a function object that
is created afresh by each access, so no access ever observes a cached
value (the docstring's promise of caching never holds). -/
theorem C9_plugins_property_never_cached (pm : PluginTable) :
    pluginsAccess pm = (loadOrder pm, true) := rfl

/-- C8: the failing input for the cascade-disable claim.  Discovery order:
plugin "A" (enabled, depends on "B") then plugin "B" (disabled).  The
discovery loop keeps "A" in the enabled table and never adds it to the
disabled set; the missing-dependency hack then pops the id of the *last
discovered* plugin ("B", the stale loop variable) from the enabled table,
where it is absent, so `collect_plugins` aborts with a `KeyError` instead
of excluding "A". -/
theorem C8_cascade_disable_broken :
    collect_plugins [⟨"A", ["B"], true⟩, ⟨"B", [], false⟩] = .error (.keyError "B") ∧
    isKey (([⟨"A", ["B"], true⟩, ⟨"B", [], false⟩] : List DiscoveredPlugin).foldl
      registerDiscovered ([], [])).1 "A" = true ∧
    "A" ∉ (([⟨"A", ["B"], true⟩, ⟨"B", [], false⟩] : List DiscoveredPlugin).foldl
      registerDiscovered ([], [])).2 := by
  decide

/-! ## Resolver invariants -/

theorem topoFrom_of_length_le (pm : PluginTable) (n : Nat) (l : List String)
    (h : l.length ≤ n) : TopoSortedFrom pm n l := by
  intro i hni hi
  exact absurd hi (by omega)

theorem topoFrom_concat (pm : PluginTable) (n : Nat) (l : List String) (x : String)
    (h : TopoSortedFrom pm n l) (hx : ∀ d ∈ depsOfD pm x, d ∈ l) :
    TopoSortedFrom pm n (l ++ [x]) := by
  intro i hni hi d hd
  by_cases hil : i < l.length
  · rw [show (l ++ [x]).get ⟨i, hi⟩ = l.get ⟨i, hil⟩ from List.get_append i hil] at hd
    obtain ⟨j, hj, hjl, hget⟩ := h i hni hil d hd
    refine ⟨j, hj, by simp; omega, ?_⟩
    rw [show (l ++ [x]).get ⟨j, _⟩ = l.get ⟨j, hjl⟩ from List.get_append j hjl]
    exact hget
  · have hixl : i = l.length := by
      simp [List.length_append] at hi
      omega
    have hgetx : (l ++ [x]).get ⟨i, hi⟩ = x := by
      rw [List.get_eq_getElem]
      exact List.getElem_concat_length l x i hixl _
    rw [hgetx] at hd
    obtain ⟨⟨j, hjl⟩, hget⟩ := List.get_of_mem (hx d hd)
    refine ⟨j, by omega, by simp; omega, ?_⟩
    rw [show (l ++ [x]).get ⟨j, _⟩ = l.get ⟨j, hjl⟩ from List.get_append j hjl]
    exact hget

theorem topoFrom_glue (pm : PluginTable) (n : Nat) (l t : List String)
    (h1 : TopoSortedFrom pm n l) (h2 : TopoSortedFrom pm l.length (l ++ t)) :
    TopoSortedFrom pm n (l ++ t) := by
  intro i hni hi d hd
  by_cases hil : i < l.length
  · rw [show (l ++ t).get ⟨i, hi⟩ = l.get ⟨i, hil⟩ from List.get_append i hil] at hd
    obtain ⟨j, hj, hjl, hget⟩ := h1 i hni hil d hd
    refine ⟨j, hj, by simp; omega, ?_⟩
    rw [show (l ++ t).get ⟨j, _⟩ = l.get ⟨j, hjl⟩ from List.get_append j hjl]
    exact hget
  · exact h2 i (by omega) hi d hd


theorem goSpec_of_recur (pm : PluginTable)
    (recur : String → List String → List String →
      Except ResolveErr (List String × List String))
    (hrec : RecurSpec pm recur) (id : String) :
    ∀ deps res unres res' unres',
      resolveGo pm recur id deps res unres = .ok (res', unres') →
      res.Nodup → GoConcl pm deps res unres res' unres' := by
  intro deps
  induction deps with
  | nil =>
    intro res unres res' unres' hok hnd
    simp [resolveGo] at hok
    obtain ⟨h1, h2⟩ := hok
    subst h1; subst h2
    refine ⟨⟨[], by simp⟩, rfl, by simp, fun y hy => Or.inl hy, hnd, ?_⟩
    exact topoFrom_of_length_le pm _ _ (le_refl _)
  | cons dep rest ih =>
    intro res unres res' unres' hok hnd
    by_cases hk : isKey pm dep
    · by_cases hr : dep ∈ res
      · rw [resolveGo, if_pos hk, if_pos hr] at hok
        obtain ⟨⟨t, ht⟩, hu, hdeps, hall, hnd', htopo⟩ := ih res unres res' unres' hok hnd
        refine ⟨⟨t, ht⟩, hu, ?_, hall, hnd', htopo⟩
        intro d hd
        rcases List.mem_cons.mp hd with rfl | hd'
        · rw [ht]; exact List.mem_append_left _ hr
        · exact hdeps d hd'
      · by_cases hu : dep ∈ unres
        · rw [resolveGo, if_pos hk, if_neg hr, if_pos hu] at hok
          cases hok
        · rw [resolveGo, if_pos hk, if_neg hr, if_neg hu] at hok
          cases hrec_eq : recur dep res unres with
          | error e => rw [hrec_eq] at hok; cases hok
          | ok pr =>
            obtain ⟨res₁, unres₁⟩ := pr
            rw [hrec_eq] at hok
            have hF := hrec dep res unres res₁ unres₁ hrec_eq hnd hr hu
            obtain ⟨⟨t₁, ht₁⟩, hu₁, hmem₁, _, hall₁, hnd₁, htopo₁⟩ := hF
            rw [hu₁] at hok
            obtain ⟨⟨t₂, ht₂⟩, hu₂, hdeps₂, hall₂, hnd₂, htopo₂⟩ :=
              ih res₁ unres res' unres' hok hnd₁
            refine ⟨⟨t₁ ++ t₂, by rw [ht₂, ht₁, List.append_assoc]⟩, hu₂, ?_, ?_, hnd₂, ?_⟩
            · intro d hd
              rcases List.mem_cons.mp hd with rfl | hd'
              · rw [ht₂]; exact List.mem_append_left _ hmem₁
              · exact hdeps₂ d hd'
            · intro y hy
              rcases hall₂ y hy with hy₁ | hy₂
              · exact hall₁ y hy₁
              · exact Or.inr hy₂
            · rw [ht₂] at htopo₂ ⊢
              exact topoFrom_glue pm res.length res₁ t₂ htopo₁ htopo₂
    · rw [resolveGo, if_neg hk] at hok
      cases hok

theorem isKey_of_findDeps (pm : PluginTable) (id : String) (deps : List String)
    (h : findDeps pm id = some deps) : isKey pm id = true := by
  unfold isKey
  rw [h]
  rfl

theorem depsOfD_of_findDeps (pm : PluginTable) (id : String) (deps : List String)
    (h : findDeps pm id = some deps) : depsOfD pm id = deps := by
  unfold depsOfD
  rw [h]
  rfl

theorem fSpec_all (pm : PluginTable) : ∀ fuel, RecurSpec pm (resolveF pm fuel) := by
  intro fuel
  induction fuel with
  | zero =>
    intro id res unres res' unres' hok
    simp [resolveF] at hok
  | succ fuel ih =>
    intro id res unres res' unres' hok hnd hr hu
    cases hfd : findDeps pm id with
    | none =>
      simp only [resolveF, hfd] at hok
      cases hok
    | some deps =>
      simp only [resolveF, hfd] at hok
      cases hgo_eq : resolveGo pm (resolveF pm fuel) id deps res (unres ++ [id]) with
      | error e =>
        simp only [hgo_eq] at hok
        cases hok
      | ok pr =>
        obtain ⟨res₁, unres₁⟩ := pr
        simp only [hgo_eq] at hok
        have hok1 : res₁ ++ [id] = res' := by
          cases hok
          rfl
        have hok2 : unres₁.erase id = unres' := by
          cases hok
          rfl
        obtain ⟨⟨t, ht⟩, hu₁, hdeps, hall, hnd₁, htopo⟩ :=
          goSpec_of_recur pm (resolveF pm fuel) ih id deps res (unres ++ [id])
            res₁ unres₁ hgo_eq hnd
        have hid_not₁ : id ∉ res₁ := by
          intro hmem
          rcases hall id hmem with h1 | h2
          · exact hr h1
          · exact h2.1 (List.mem_append_right unres (List.mem_singleton_self id))
        refine ⟨⟨t ++ [id], by rw [← hok1, ht, List.append_assoc]⟩, ?_, ?_, ?_, ?_, ?_, ?_⟩
        · rw [← hok2, hu₁, List.erase_append_right [id] hu]
          simp
        · rw [← hok1]
          exact List.mem_append_right _ (List.mem_singleton_self id)
        · intro d hd
          rw [depsOfD_of_findDeps pm id deps hfd] at hd
          rw [← hok1]
          exact List.mem_append_left _ (hdeps d hd)
        · intro y hy
          rw [← hok1] at hy
          rcases List.mem_append.mp hy with hy₁ | hy₂
          · rcases hall y hy₁ with h1 | h2
            · exact Or.inl h1
            · refine Or.inr ⟨fun hc => h2.1 (List.mem_append_left _ hc), h2.2⟩
          · rw [List.mem_singleton.mp hy₂]
            exact Or.inr ⟨hu, isKey_of_findDeps pm id deps hfd⟩
        · rw [← hok1]
          rw [List.nodup_append]
          refine ⟨hnd₁, List.nodup_singleton id, ?_⟩
          intro y hy hy'
          rw [List.mem_singleton.mp hy'] at hy
          exact hid_not₁ hy
        · rw [← hok1]
          refine topoFrom_concat pm res.length res₁ id htopo ?_
          intro d hd
          rw [depsOfD_of_findDeps pm id deps hfd] at hd
          exact hdeps d hd

theorem freeCard_mono (pm : PluginTable) (res res₁ unres : List String)
    (h : ∀ y ∈ res, y ∈ res₁) :
    freeCard pm res₁ unres ≤ freeCard pm res unres := by
  apply Finset.card_le_card
  intro a ha
  simp only [freeCard, Finset.mem_sdiff, Finset.mem_union, List.mem_toFinset] at ha ⊢
  refine ⟨ha.1, fun hc => ha.2 ?_⟩
  rcases hc with hc | hc
  · exact Or.inl (h a hc)
  · exact Or.inr hc

theorem go_no_interrupt (pm : PluginTable)
    (recur : String → List String → List String →
      Except ResolveErr (List String × List String))
    (hrecS : RecurSpec pm recur) (B : Nat)
    (hrecNI : ∀ x res unres, res.Nodup → x ∉ res → x ∉ unres →
      freeCard pm res unres < B → recur x res unres ≠ .error .interrupted)
    (id : String) :
    ∀ deps res unres, res.Nodup → freeCard pm res unres < B →
      resolveGo pm recur id deps res unres ≠ .error .interrupted := by
  intro deps
  induction deps with
  | nil =>
    intro res unres _ _
    simp [resolveGo]
  | cons dep rest ih =>
    intro res unres hnd hc
    by_cases hk : isKey pm dep
    · by_cases hr : dep ∈ res
      · rw [resolveGo, if_pos hk, if_pos hr]
        exact ih res unres hnd hc
      · by_cases hu : dep ∈ unres
        · rw [resolveGo, if_pos hk, if_neg hr, if_pos hu]
          simp
        · rw [resolveGo, if_pos hk, if_neg hr, if_neg hu]
          cases hrec_eq : recur dep res unres with
          | error e =>
            intro hcontra
            have he : e = .interrupted := by
              cases hcontra
              rfl
            exact hrecNI dep res unres hnd hr hu hc (by rw [hrec_eq, he])
          | ok pr =>
            obtain ⟨res₁, unres₁⟩ := pr
            obtain ⟨⟨t, ht⟩, hu₁, _, _, _, hnd₁, _⟩ :=
              hrecS dep res unres res₁ unres₁ hrec_eq hnd hr hu
            have hc₁ : freeCard pm res₁ unres < B := by
              refine lt_of_le_of_lt (freeCard_mono pm res res₁ unres ?_) hc
              intro y hy
              rw [ht]
              exact List.mem_append_left _ hy
            show resolveGo pm recur id rest res₁ unres₁ ≠ .error .interrupted
            rw [hu₁]
            exact ih res₁ unres hnd₁ hc₁
    · rw [resolveGo, if_neg hk]
      simp

theorem keysFinset_mem_of_findDeps (pm : PluginTable) (id : String)
    (deps : List String) (h : findDeps pm id = some deps) :
    id ∈ keysFinset pm := by
  unfold findDeps at h
  cases hf : pm.find? (fun p => p.1 == id) with
  | none => rw [hf] at h; cases h
  | some p =>
    have hmem := List.mem_of_find?_eq_some hf
    have hpred := List.find?_some hf
    have : p.1 = id := by simpa using hpred
    rw [keysFinset, List.mem_toFinset]
    exact List.mem_map.mpr ⟨p, hmem, this⟩

theorem resolveF_no_interrupt (pm : PluginTable) :
    ∀ fuel id res unres, res.Nodup → id ∉ res → id ∉ unres →
      freeCard pm res unres < fuel →
      resolveF pm fuel id res unres ≠ .error .interrupted := by
  intro fuel
  induction fuel with
  | zero =>
    intro id res unres _ _ _ hc
    exact absurd hc (by omega)
  | succ fuel ih =>
    intro id res unres hnd hr hu hc
    cases hfd : findDeps pm id with
    | none =>
      simp only [resolveF, hfd]
      simp
    | some deps =>
      simp only [resolveF, hfd]
      have hfree : id ∈ keysFinset pm \ (res.toFinset ∪ unres.toFinset) := by
        rw [Finset.mem_sdiff, Finset.mem_union]
        refine ⟨keysFinset_mem_of_findDeps pm id deps hfd, ?_⟩
        intro hcon
        rcases hcon with hcon | hcon
        · exact hr (List.mem_toFinset.mp hcon)
        · exact hu (List.mem_toFinset.mp hcon)
      have hcard : freeCard pm res (unres ++ [id]) < fuel := by
        have hset : keysFinset pm \ (res.toFinset ∪ (unres ++ [id]).toFinset)
            = (keysFinset pm \ (res.toFinset ∪ unres.toFinset)).erase id := by
          ext a
          simp only [Finset.mem_sdiff, Finset.mem_union, Finset.mem_erase,
            List.mem_toFinset, List.mem_append, List.mem_singleton]
          tauto
        have hpos : 0 < freeCard pm res unres := Finset.card_pos.mpr ⟨id, hfree⟩
        rw [freeCard, hset, Finset.card_erase_of_mem hfree]
        rw [freeCard] at hc hpos
        omega
      cases hgo_eq : resolveGo pm (resolveF pm fuel) id deps res (unres ++ [id]) with
      | error e =>
        simp only [hgo_eq]
        intro hcontra
        have he : e = .interrupted := by
          cases hcontra
          rfl
        exact go_no_interrupt pm (resolveF pm fuel) (fSpec_all pm fuel) fuel
          (fun x rs us h1 h2 h3 h4 => ih x rs us h1 h2 h3 h4) id deps res
          (unres ++ [id]) hnd hcard (by rw [hgo_eq, he])
      | ok pr =>
        obtain ⟨res₁, unres₁⟩ := pr
        simp only [hgo_eq]
        simp


theorem reflTrans_of_chain_last {r : String → String → Prop} :
    ∀ l : List String, l.Chain' r → ∀ a ∈ l, ∀ b, l.getLast? = some b →
      Relation.ReflTransGen r a b := by
  intro l
  induction l with
  | nil =>
    intro _ a ha
    cases ha
  | cons x xs ih =>
    intro hc a ha b hb
    cases xs with
    | nil =>
      have hax : a = x := by simpa using ha
      have hbx : b = x := by
        have := hb
        simp at this
        exact this.symm
      rw [hax, hbx]
    | cons y ys =>
      rw [List.chain'_cons] at hc
      have hlast : (y :: ys).getLast? = some b := by
        simpa [List.getLast?] using hb
      rcases List.mem_cons.mp ha with rfl | ha'
      · exact Relation.ReflTransGen.head hc.1
          (ih hc.2 y (List.mem_cons_self y ys) b hlast)
      · exact ih hc.2 a ha' b hlast

theorem transGen_of_cycle (pm : PluginTable) (l : List String)
    (hc : DepChain pm l) (last : String) (hl : l.getLast? = some last)
    (dep : String) (hmem : dep ∈ l) (hedge : depRel pm last dep) :
    Relation.TransGen (depRel pm) dep dep :=
  Relation.TransGen.tail' (reflTrans_of_chain_last l hc dep hmem last hl) hedge

theorem chain_extend (pm : PluginTable) (unres : List String) (id dep : String)
    (hc : DepChain pm unres) (hl : unres.getLast? = some id)
    (hedge : depRel pm id dep) : DepChain pm (unres ++ [dep]) := by
  rw [DepChain, List.chain'_append]
  refine ⟨hc, List.chain'_singleton dep, ?_⟩
  intro a ha b hb
  have hax : a = id := by
    rw [hl] at ha
    have := ha
    simp at this
    exact this.symm
  have hbd : b = dep := by
    have := hb
    simp at this
    exact this.symm
  rw [hax, hbd]
  exact hedge

theorem go_no_cyclic (pm : PluginTable)
    (recur : String → List String → List String →
      Except ResolveErr (List String × List String))
    (hrecS : RecurSpec pm recur)
    (hrecNC : ∀ x res unres, res.Nodup → x ∉ res → x ∉ unres →
      DepChain pm (unres ++ [x]) →
      ∀ s d, recur x res unres ≠ .error (.cyclic s d))
    (ha : Acyclic pm) (id : String) :
    ∀ deps res unres, res.Nodup →
      DepChain pm unres → unres.getLast? = some id →
      (∀ d ∈ deps, d ∈ depsOfD pm id) →
      ∀ s d, resolveGo pm recur id deps res unres ≠ .error (.cyclic s d) := by
  intro deps
  induction deps with
  | nil =>
    intro res unres _ _ _ _ s d
    simp [resolveGo]
  | cons dep rest ih =>
    intro res unres hnd hchain hlast hdeps s d
    by_cases hk : isKey pm dep
    · by_cases hr : dep ∈ res
      · rw [resolveGo, if_pos hk, if_pos hr]
        exact ih res unres hnd hchain hlast
          (fun x hx => hdeps x (List.mem_cons_of_mem dep hx)) s d
      · by_cases hu : dep ∈ unres
        · exfalso
          exact ha dep (transGen_of_cycle pm unres hchain id hlast dep hu
            (hdeps dep (List.mem_cons_self dep rest)))
        · rw [resolveGo, if_pos hk, if_neg hr, if_neg hu]
          cases hrec_eq : recur dep res unres with
          | error e =>
            intro hcontra
            have he : e = .cyclic s d := by
              cases hcontra
              rfl
            exact hrecNC dep res unres hnd hr hu
              (chain_extend pm unres id dep hchain hlast
                (hdeps dep (List.mem_cons_self dep rest))) s d
              (by rw [hrec_eq, he])
          | ok pr =>
            obtain ⟨res₁, unres₁⟩ := pr
            obtain ⟨⟨t, ht⟩, hu₁, _, _, _, hnd₁, _⟩ :=
              hrecS dep res unres res₁ unres₁ hrec_eq hnd hr hu
            show resolveGo pm recur id rest res₁ unres₁ ≠ .error (.cyclic s d)
            rw [hu₁]
            exact ih res₁ unres hnd₁ hchain hlast
              (fun x hx => hdeps x (List.mem_cons_of_mem dep hx)) s d
    · rw [resolveGo, if_neg hk]
      simp

theorem resolveF_no_cyclic (pm : PluginTable) (ha : Acyclic pm) :
    ∀ fuel id res unres, res.Nodup → id ∉ res → id ∉ unres →
      DepChain pm (unres ++ [id]) →
      ∀ s d, resolveF pm fuel id res unres ≠ .error (.cyclic s d) := by
  intro fuel
  induction fuel with
  | zero =>
    intro id res unres _ _ _ _ s d
    simp [resolveF]
  | succ fuel ih =>
    intro id res unres hnd hr hu hchain s d
    cases hfd : findDeps pm id with
    | none =>
      simp only [resolveF, hfd]
      simp
    | some deps =>
      simp only [resolveF, hfd]
      cases hgo_eq : resolveGo pm (resolveF pm fuel) id deps res (unres ++ [id]) with
      | error e =>
        simp only [hgo_eq]
        intro hcontra
        have he : e = .cyclic s d := by
          cases hcontra
          rfl
        refine go_no_cyclic pm (resolveF pm fuel) (fSpec_all pm fuel)
          (fun x rs us h1 h2 h3 h4 => ih x rs us h1 h2 h3 h4) ha id deps res
          (unres ++ [id]) hnd hchain (List.getLast?_concat unres) ?_ s d
          (by rw [hgo_eq, he])
        intro x hx
        rw [depsOfD_of_findDeps pm id deps hfd]
        exact hx
      | ok pr =>
        obtain ⟨res₁, unres₁⟩ := pr
        simp only [hgo_eq]
        simp

theorem go_no_missing (pm : PluginTable)
    (recur : String → List String → List String →
      Except ResolveErr (List String × List String))
    (hrecNM : ∀ x res unres, isKey pm x = true →
      ∀ m, recur x res unres ≠ .error (.missing m))
    (id : String) :
    ∀ deps res unres, (∀ d ∈ deps, isKey pm d = true) →
      ∀ m, resolveGo pm recur id deps res unres ≠ .error (.missing m) := by
  intro deps
  induction deps with
  | nil =>
    intro res unres _ m
    simp [resolveGo]
  | cons dep rest ih =>
    intro res unres hdeps m
    have hk : isKey pm dep = true := hdeps dep (List.mem_cons_self dep rest)
    rw [resolveGo, if_pos hk]
    by_cases hr : dep ∈ res
    · rw [if_pos hr]
      exact ih res unres (fun x hx => hdeps x (List.mem_cons_of_mem dep hx)) m
    · rw [if_neg hr]
      by_cases hu : dep ∈ unres
      · rw [if_pos hu]
        simp
      · rw [if_neg hu]
        cases hrec_eq : recur dep res unres with
        | error e =>
          intro hcontra
          have he : e = .missing m := by
            cases hcontra
            rfl
          exact hrecNM dep res unres hk m (by rw [hrec_eq, he])
        | ok pr =>
          obtain ⟨res₁, unres₁⟩ := pr
          show resolveGo pm recur id rest res₁ unres₁ ≠ .error (.missing m)
          exact ih res₁ unres₁ (fun x hx => hdeps x (List.mem_cons_of_mem dep hx)) m

theorem allPresent_deps (pm : PluginTable) (hp : AllPresent pm) (id : String)
    (deps : List String) (h : findDeps pm id = some deps) :
    ∀ d ∈ deps, isKey pm d = true := by
  unfold findDeps at h
  cases hf : pm.find? (fun p => p.1 == id) with
  | none => rw [hf] at h; cases h
  | some p =>
    rw [hf] at h
    have hmem := List.mem_of_find?_eq_some hf
    have hdeps : p.2 = deps := by simpa using h
    rw [← hdeps]
    exact hp p hmem

theorem resolveF_no_missing (pm : PluginTable) (hp : AllPresent pm) :
    ∀ fuel id res unres, isKey pm id = true →
      ∀ m, resolveF pm fuel id res unres ≠ .error (.missing m) := by
  intro fuel
  induction fuel with
  | zero =>
    intro id res unres _ m
    simp [resolveF]
  | succ fuel ih =>
    intro id res unres hk m
    cases hfd : findDeps pm id with
    | none =>
      rw [isKey, hfd] at hk
      cases hk
    | some deps =>
      simp only [resolveF, hfd]
      cases hgo_eq : resolveGo pm (resolveF pm fuel) id deps res (unres ++ [id]) with
      | error e =>
        simp only [hgo_eq]
        intro hcontra
        have he : e = .missing m := by
          cases hcontra
          rfl
        exact go_no_missing pm (resolveF pm fuel)
          (fun x rs us h1 m' => ih x rs us h1 m') id deps res (unres ++ [id])
          (allPresent_deps pm hp id deps hfd) m (by rw [hgo_eq, he])
      | ok pr =>
        obtain ⟨res₁, unres₁⟩ := pr
        simp only [hgo_eq]
        simp

/-! ## Wrappers at the level of `dependencies` and `loadOrder` -/

theorem dependencies_ok_spec (pm : PluginTable) (id : String) (l : List String)
    (h : dependencies pm id true = .ok l) :
    TopoSortedFrom pm 0 l ∧ l.Nodup ∧ id ∈ l ∧
    (∀ d ∈ depsOfD pm id, d ∈ l) ∧ (∀ y ∈ l, isKey pm y = true) := by
  unfold dependencies at h
  cases hres : resolveF pm (pm.length + 1) id [] [] with
  | error e =>
    rw [hres] at h
    cases h
  | ok pr =>
    obtain ⟨res, unres⟩ := pr
    rw [hres] at h
    have hl : res = l := by
      simpa using h
    obtain ⟨_, _, hid, hdeps, hall, hnd, htopo⟩ :=
      fSpec_all pm (pm.length + 1) id [] [] res unres hres List.nodup_nil
        (List.not_mem_nil id) (List.not_mem_nil id)
    subst hl
    refine ⟨by simpa using htopo, hnd, hid, hdeps, ?_⟩
    intro y hy
    rcases hall y hy with hc | hc
    · cases hc
    · exact hc.2

theorem freeCard_top (pm : PluginTable) : freeCard pm [] [] < pm.length + 1 := by
  have h1 : freeCard pm [] [] ≤ (pm.map Prod.fst).length := by
    rw [freeCard]
    refine le_trans (Finset.card_le_card ?_) (List.toFinset_card_le (pm.map Prod.fst))
    intro a ha
    rw [Finset.mem_sdiff] at ha
    exact ha.1
  rw [List.length_map] at h1
  omega

theorem dependencies_ok_of_acyclic (pm : PluginTable) (id : String)
    (hp : AllPresent pm) (ha : Acyclic pm) (hk : isKey pm id = true) :
    ∃ l, dependencies pm id true = .ok l := by
  cases hres : resolveF pm (pm.length + 1) id [] [] with
  | ok pr =>
    obtain ⟨res, unres⟩ := pr
    refine ⟨res, ?_⟩
    unfold dependencies
    rw [hres]
    rfl
  | error e =>
    exfalso
    cases e with
    | missing m =>
      exact resolveF_no_missing pm hp (pm.length + 1) id [] [] hk m hres
    | cyclic s d =>
      exact resolveF_no_cyclic pm ha (pm.length + 1) id [] [] List.nodup_nil
        (List.not_mem_nil id) (List.not_mem_nil id)
        (by simpa [DepChain] using List.chain'_singleton id) s d hres
    | interrupted =>
      exact resolveF_no_interrupt pm (pm.length + 1) id [] [] List.nodup_nil
        (List.not_mem_nil id) (List.not_mem_nil id) (freeCard_top pm) hres

theorem isKey_of_depsOfD_ne (pm : PluginTable) (x : String)
    (h : depsOfD pm x ≠ []) : isKey pm x = true := by
  unfold depsOfD at h
  unfold isKey
  cases hf : findDeps pm x with
  | none =>
    rw [hf] at h
    simp at h
  | some _ => rfl

theorem dependencies_cyclic_of_mutual (pm : PluginTable) (A B : String)
    (hp : AllPresent pm) (hAB : B ∈ depsOfD pm A) (hBA : A ∈ depsOfD pm B) :
    ∃ s d, dependencies pm A true = .error (.cyclic s d) := by
  have hkA : isKey pm A = true := by
    apply isKey_of_depsOfD_ne
    intro hc
    rw [hc] at hAB
    cases hAB
  cases hres : resolveF pm (pm.length + 1) A [] [] with
  | error e =>
    cases e with
    | missing m =>
      exact absurd hres (resolveF_no_missing pm hp (pm.length + 1) A [] [] hkA m)
    | cyclic s d =>
      refine ⟨s, d, ?_⟩
      unfold dependencies
      rw [hres]
    | interrupted =>
      exact absurd hres (resolveF_no_interrupt pm (pm.length + 1) A [] []
        List.nodup_nil (List.not_mem_nil A) (List.not_mem_nil A) (freeCard_top pm))
  | ok pr =>
    exfalso
    obtain ⟨res, unres⟩ := pr
    have hok : dependencies pm A true = .ok res := by
      unfold dependencies
      rw [hres]
      rfl
    obtain ⟨htopo, hnd, hmem, _, _⟩ := dependencies_ok_spec pm A res hok
    obtain ⟨⟨iA, hiA⟩, hgA⟩ := List.get_of_mem hmem
    obtain ⟨jB, hjB, hjB', hgB⟩ := htopo iA (Nat.zero_le iA) hiA B (by rw [hgA]; exact hAB)
    obtain ⟨kA, hkAlt, hkA', hgA2⟩ := htopo jB (Nat.zero_le jB) hjB' A (by rw [hgB]; exact hBA)
    have : (⟨kA, hkA'⟩ : Fin res.length) = ⟨iA, hiA⟩ := by
      rw [← List.Nodup.get_inj_iff hnd]
      rw [hgA2, hgA]
    have : kA = iA := by simpa using this
    omega

theorem dependencies_missing_of (pm : PluginTable) (id d : String)
    (ha : Acyclic pm) (hk : isKey pm id = true)
    (hd : d ∈ depsOfD pm id) (hm : isKey pm d = false) :
    ∃ m, dependencies pm id true = .error (.missing m) := by
  cases hres : resolveF pm (pm.length + 1) id [] [] with
  | error e =>
    cases e with
    | missing m =>
      refine ⟨m, ?_⟩
      unfold dependencies
      rw [hres]
    | cyclic s d' =>
      exact absurd hres (resolveF_no_cyclic pm ha (pm.length + 1) id [] []
        List.nodup_nil (List.not_mem_nil id) (List.not_mem_nil id)
        (by simpa [DepChain] using List.chain'_singleton id) s d')
    | interrupted =>
      exact absurd hres (resolveF_no_interrupt pm (pm.length + 1) id [] []
        List.nodup_nil (List.not_mem_nil id) (List.not_mem_nil id) (freeCard_top pm))
  | ok pr =>
    exfalso
    obtain ⟨res, unres⟩ := pr
    have hok : dependencies pm id true = .ok res := by
      unfold dependencies
      rw [hres]
      rfl
    obtain ⟨_, _, _, hdeps, hall⟩ := dependencies_ok_spec pm id res hok
    have : isKey pm d = true := hall d (hdeps d hd)
    rw [hm] at this
    cases this

/-! ## Load-order lemmas -/

theorem get_append_middle {α : Type} (l₁ : List α) (x : α) (l₂ : List α)
    (h : l₁.length < (l₁ ++ x :: l₂).length) :
    (l₁ ++ x :: l₂).get ⟨l₁.length, h⟩ = x := by
  rw [List.get_eq_getElem, List.getElem_append_right (le_refl l₁.length)]
  simp

theorem mergeInto_spec (pm : PluginTable) :
    ∀ l₂ l₁ acc, TopoSortedFrom pm 0 acc →
      (∀ x ∈ l₁, x ∈ acc) → TopoSortedFrom pm 0 (l₁ ++ l₂) →
      (∃ t, mergeInto acc l₂ = acc ++ t) ∧ TopoSortedFrom pm 0 (mergeInto acc l₂) ∧
      ∀ x ∈ l₂, x ∈ mergeInto acc l₂ := by
  intro l₂
  induction l₂ with
  | nil =>
    intro l₁ acc hacc _ _
    exact ⟨⟨[], by simp [mergeInto]⟩, by simpa [mergeInto] using hacc, by simp⟩
  | cons x xs ih =>
    intro l₁ acc hacc hsub htopo
    have hstep : mergeInto acc (x :: xs) =
        mergeInto (if x ∈ acc then acc else acc ++ [x]) xs := by
      simp [mergeInto]
    have hjunction : l₁.length < (l₁ ++ x :: xs).length := by
      simp
    have hdepsx : ∀ d ∈ depsOfD pm x, d ∈ acc := by
      intro d hd
      obtain ⟨j, hj, hj', hg⟩ := htopo l₁.length (Nat.zero_le _) hjunction d
        (by rw [get_append_middle l₁ x xs hjunction]; exact hd)
      have hjl : j < l₁.length := hj
      have : (l₁ ++ x :: xs).get ⟨j, hj'⟩ = l₁.get ⟨j, hjl⟩ := List.get_append j hjl
      rw [this] at hg
      exact hsub d (by rw [← hg]; exact List.get_mem l₁ j hjl)
    have hacc' : TopoSortedFrom pm 0 (if x ∈ acc then acc else acc ++ [x]) := by
      by_cases hx : x ∈ acc
      · rw [if_pos hx]
        exact hacc
      · rw [if_neg hx]
        exact topoFrom_concat pm 0 acc x hacc hdepsx
    have hxmem : x ∈ (if x ∈ acc then acc else acc ++ [x]) := by
      by_cases hx : x ∈ acc
      · rw [if_pos hx]
        exact hx
      · rw [if_neg hx]
        exact List.mem_append_right acc (List.mem_singleton_self x)
    have hsub' : ∀ y ∈ l₁ ++ [x], y ∈ (if x ∈ acc then acc else acc ++ [x]) := by
      intro y hy
      rcases List.mem_append.mp hy with hy₁ | hy₂
      · have := hsub y hy₁
        by_cases hx : x ∈ acc
        · rw [if_pos hx]
          exact this
        · rw [if_neg hx]
          exact List.mem_append_left _ this
      · rw [List.mem_singleton.mp hy₂]
        exact hxmem
    have htopo' : TopoSortedFrom pm 0 ((l₁ ++ [x]) ++ xs) := by
      rw [List.append_assoc]
      simpa using htopo
    obtain ⟨⟨t, ht⟩, htp, hmm⟩ := ih (l₁ ++ [x]) _ hacc' hsub' htopo'
    rw [hstep]
    have hext : ∃ t', mergeInto (if x ∈ acc then acc else acc ++ [x]) xs = acc ++ t' := by
      by_cases hx : x ∈ acc
      · rw [if_pos hx] at ht ⊢
        exact ⟨t, ht⟩
      · rw [if_neg hx] at ht ⊢
        exact ⟨[x] ++ t, by rw [ht, List.append_assoc]⟩
    refine ⟨hext, htp, ?_⟩
    intro y hy
    rcases List.mem_cons.mp hy with rfl | hy'
    · rw [ht]
      exact List.mem_append_left _ hxmem
    · exact hmm y hy'

theorem loadOrderGo_ok (pm : PluginTable) :
    ∀ ks acc, TopoSortedFrom pm 0 acc →
      (∀ k ∈ ks, ∃ l, dependencies pm k true = .ok l) →
      ∃ L, loadOrderGo pm acc ks = .ok L ∧ TopoSortedFrom pm 0 L ∧
        (∃ t, L = acc ++ t) ∧ ∀ k ∈ ks, k ∈ L := by
  intro ks
  induction ks with
  | nil =>
    intro acc hacc _
    exact ⟨acc, rfl, hacc, ⟨[], by simp⟩, by simp⟩
  | cons k ks ih =>
    intro acc hacc hall
    obtain ⟨l, hl⟩ := hall k (List.mem_cons_self k ks)
    obtain ⟨htopol, _, hkl, _, _⟩ := dependencies_ok_spec pm k l hl
    obtain ⟨⟨t, ht⟩, htp, hmm⟩ := mergeInto_spec pm l [] acc hacc (by simp)
      (by simpa using htopol)
    obtain ⟨L, hL, htL, ⟨t₂, ht₂⟩, hcov⟩ := ih (mergeInto acc l) htp
      (fun k' hk' => hall k' (List.mem_cons_of_mem k hk'))
    refine ⟨L, ?_, htL, ⟨t ++ t₂, by rw [ht₂, ht, List.append_assoc]⟩, ?_⟩
    · rw [loadOrderGo, hl]
      exact hL
    · intro k' hk'
      rcases List.mem_cons.mp hk' with rfl | hk''
      · rw [ht₂]
        exact List.mem_append_left _ (hmm k' hkl)
      · exact hcov k' hk''

theorem loadOrderGo_stuck (pm : PluginTable) :
    ∀ ks acc k₀, k₀ ∈ ks → (∀ l, dependencies pm k₀ true ≠ .ok l) →
      ∃ e, loadOrderGo pm acc ks = .error e := by
  intro ks
  induction ks with
  | nil =>
    intro acc k₀ hmem
    cases hmem
  | cons k ks ih =>
    intro acc k₀ hmem hbad
    cases hd : dependencies pm k true with
    | error e =>
      refine ⟨e, ?_⟩
      rw [loadOrderGo, hd]
    | ok l =>
      rcases List.mem_cons.mp hmem with rfl | hmem'
      · exact absurd hd (hbad l)
      · obtain ⟨e, he⟩ := ih (mergeInto acc l) k₀ hmem' hbad
        refine ⟨e, ?_⟩
        rw [loadOrderGo, hd]
        exact he

theorem loadOrderGo_cyclic (pm : PluginTable) :
    ∀ ks acc k₀, k₀ ∈ ks →
      (∃ s d, dependencies pm k₀ true = .error (.cyclic s d)) →
      (∀ k ∈ ks, (∃ l, dependencies pm k true = .ok l) ∨
        ∃ s d, dependencies pm k true = .error (.cyclic s d)) →
      ∃ s d, loadOrderGo pm acc ks = .error (.cyclic s d) := by
  intro ks
  induction ks with
  | nil =>
    intro acc k₀ hmem
    cases hmem
  | cons k ks ih =>
    intro acc k₀ hmem hcyc hall
    rcases hall k (List.mem_cons_self k ks) with ⟨l, hl⟩ | ⟨s, d, hsd⟩
    · rcases List.mem_cons.mp hmem with rfl | hmem'
      · obtain ⟨s, d, hsd⟩ := hcyc
        rw [hl] at hsd
        cases hsd
      · obtain ⟨s, d, he⟩ := ih (mergeInto acc l) k₀ hmem' hcyc
          (fun k' hk' => hall k' (List.mem_cons_of_mem k hk'))
        refine ⟨s, d, ?_⟩
        rw [loadOrderGo, hl]
        exact he
    · refine ⟨s, d, ?_⟩
      rw [loadOrderGo, hsd]

theorem isKey_of_mem_fst (pm : PluginTable) (k : String)
    (h : k ∈ pm.map Prod.fst) : isKey pm k = true := by
  obtain ⟨p, hp, hfst⟩ := List.mem_map.mp h
  unfold isKey findDeps
  cases hf : pm.find? (fun q => q.1 == k) with
  | some q => rfl
  | none =>
    exfalso
    have := List.find?_eq_none.mp hf p hp
    rw [hfst] at this
    simp at this

theorem mem_fst_of_isKey (pm : PluginTable) (k : String)
    (h : isKey pm k = true) : k ∈ pm.map Prod.fst := by
  unfold isKey findDeps at h
  cases hf : pm.find? (fun q => q.1 == k) with
  | none =>
    rw [hf] at h
    cases h
  | some p =>
    have hmem := List.mem_of_find?_eq_some hf
    have hpred : p.1 = k := by
      have := List.find?_some hf
      simpa using this
    exact List.mem_map.mpr ⟨p, hmem, hpred⟩

/-! ## From the positional invariant to transitive dependencies -/

theorem topo_before_trans (pm : PluginTable) (l : List String)
    (h : TopoSortedFrom pm 0 l) :
    ∀ j, ∀ hj : j < l.length, ∀ d,
      Relation.TransGen (depRel pm) (l.get ⟨j, hj⟩) d →
      ∃ i, i < j ∧ ∃ hi : i < l.length, l.get ⟨i, hi⟩ = d := by
  intro j
  induction j using Nat.strong_induction_on with
  | _ j ih =>
    intro hj d htg
    obtain ⟨m, hm, hmd⟩ := (Relation.TransGen.head'_iff).mp htg
    obtain ⟨i, hij, hi, hgi⟩ := h j (Nat.zero_le j) hj m hm
    rcases (Relation.reflTransGen_iff_eq_or_transGen.mp hmd) with heq | htg'
    · refine ⟨i, hij, hi, ?_⟩
      rw [hgi, heq]
    · obtain ⟨i', hi'lt, hi'', hg⟩ := ih i hij hi d (by rw [hgi]; exact htg')
      exact ⟨i', lt_trans hi'lt hij, hi'', hg⟩

theorem acyclic_of_rank (pm : PluginTable) (rk : String → Nat)
    (h : ∀ a b, depRel pm a b → rk b < rk a) : Acyclic pm := by
  intro x hx
  have key : ∀ a b, Relation.TransGen (depRel pm) a b → rk b < rk a := by
    intro a b hab
    induction hab with
    | single h1 => exact h _ _ h1
    | tail _ h2 ih => exact lt_trans (h _ _ h2) ih
  exact absurd (key x x hx) (lt_irrefl _)


theorem dependencies_ok_or_cyclic (pm : PluginTable) (hp : AllPresent pm)
    (k : String) (hk : isKey pm k = true) :
    (∃ l, dependencies pm k true = .ok l) ∨
    ∃ s d, dependencies pm k true = .error (.cyclic s d) := by
  cases hres : resolveF pm (pm.length + 1) k [] [] with
  | ok pr =>
    obtain ⟨res, unres⟩ := pr
    refine Or.inl ⟨res, ?_⟩
    unfold dependencies
    rw [hres]
    rfl
  | error e =>
    cases e with
    | missing m =>
      exact absurd hres (resolveF_no_missing pm hp (pm.length + 1) k [] [] hk m)
    | interrupted =>
      exact absurd hres (resolveF_no_interrupt pm (pm.length + 1) k [] []
        List.nodup_nil (List.not_mem_nil k) (List.not_mem_nil k) (freeCard_top pm))
    | cyclic s d =>
      refine Or.inr ⟨s, d, ?_⟩
      unfold dependencies
      rw [hres]

/-- C1: for every plugin table whose dependency graph is a DAG with all
declared dependencies present, `dependencies(id)` succeeds and every
transitive dependency of `id` appears in the returned list before `id`
itself, and the global load order produced by the `plugins` property is a
valid topological sort: whenever `a` depends on `b`, `b` precedes `a`. -/
theorem C1_topological_order (pm : PluginTable) (id : String)
    (hk : isKey pm id = true) (hp : AllPresent pm) (ha : Acyclic pm) :
    (∃ l, dependencies pm id true = .ok l ∧
      ∀ d, Relation.TransGen (depRel pm) id d → before l d id) ∧
    (∃ L, loadOrder pm = .ok L ∧
      ∀ a b, isKey pm a = true → depRel pm a b → before L b a) := by
  constructor
  · obtain ⟨l, hl⟩ := dependencies_ok_of_acyclic pm id hp ha hk
    refine ⟨l, hl, ?_⟩
    obtain ⟨htopo, _, hmem, _, _⟩ := dependencies_ok_spec pm id l hl
    intro d htg
    obtain ⟨⟨j, hj⟩, hg⟩ := List.get_of_mem hmem
    obtain ⟨i, hij, hi, hgi⟩ := topo_before_trans pm l htopo j hj d
      (by rw [hg]; exact htg)
    exact ⟨i, j, hi, hj, hij, hgi, hg⟩
  · obtain ⟨L, hL, htL, _, hcov⟩ := loadOrderGo_ok pm (pm.map Prod.fst) []
      (topoFrom_of_length_le pm 0 [] (le_refl 0))
      (fun k hkm => dependencies_ok_of_acyclic pm k hp ha (isKey_of_mem_fst pm k hkm))
    refine ⟨L, hL, ?_⟩
    intro a b hka hab
    obtain ⟨⟨ja, hja⟩, hga⟩ := List.get_of_mem (hcov a (mem_fst_of_isKey pm a hka))
    obtain ⟨i, hij, hi, hgi⟩ := htL ja (Nat.zero_le ja) hja b (by rw [hga]; exact hab)
    exact ⟨i, ja, hi, hja, hij, hgi, hga⟩


theorem pmLinear_acyclic : Acyclic pmLinear := by
  apply acyclic_of_rank pmLinear
    (fun s => if s = "ext2" then 2 else if s = "ext1" then 1 else 0)
  intro a b hab
  rcases eq_or_ne a "core" with rfl | h1
  · have hz : depsOfD pmLinear "core" = [] := by decide
    rw [depRel, hz] at hab
    cases hab
  rcases eq_or_ne a "ext1" with rfl | h2
  · have hz : depsOfD pmLinear "ext1" = ["core"] := by decide
    rw [depRel, hz] at hab
    have hb : b = "core" := by simpa using hab
    subst hb
    decide
  rcases eq_or_ne a "ext2" with rfl | h3
  · have hz : depsOfD pmLinear "ext2" = ["ext1"] := by decide
    rw [depRel, hz] at hab
    have hb : b = "ext1" := by simpa using hab
    subst hb
    decide
  · have hz : depsOfD pmLinear a = [] := by
      unfold depsOfD findDeps pmLinear
      have e1 : (("core" : String) == a) = false := beq_eq_false_iff_ne.mpr (Ne.symm h1)
      have e2 : (("ext1" : String) == a) = false := beq_eq_false_iff_ne.mpr (Ne.symm h2)
      have e3 : (("ext2" : String) == a) = false := beq_eq_false_iff_ne.mpr (Ne.symm h3)
      simp [List.find?, e1, e2, e3]
    rw [depRel, hz] at hab
    cases hab

/-- C1 witness: the linear chain core before ext1 before ext2. -/
theorem C1_topological_order_witness :
    (∃ l, dependencies pmLinear "ext2" true = .ok l ∧
      ∀ d, Relation.TransGen (depRel pmLinear) "ext2" d → before l d "ext2") ∧
    (∃ L, loadOrder pmLinear = .ok L ∧
      ∀ a b, isKey pmLinear a = true → depRel pmLinear a b → before L b a) :=
  C1_topological_order pmLinear "ext2" (by decide) (by decide) pmLinear_acyclic

/-- C2 (amended): for plugins `A` and `B` that depend on each other in a
table all of whose declared dependencies are present, resolving either
plugin raises the cyclic-dependency error, and the load-order computation
raises the cyclic-dependency error as well instead of producing an order
(so neither plugin is silently loaded). -/
theorem C2_mutual_cycle_detected (pm : PluginTable) (A B : String)
    (hp : AllPresent pm) (hAB : B ∈ depsOfD pm A) (hBA : A ∈ depsOfD pm B) :
    (∃ s d, dependencies pm A true = .error (.cyclic s d)) ∧
    (∃ s d, dependencies pm B true = .error (.cyclic s d)) ∧
    (∃ s d, loadOrder pm = .error (.cyclic s d)) := by
  have h1 := dependencies_cyclic_of_mutual pm A B hp hAB hBA
  have h2 := dependencies_cyclic_of_mutual pm B A hp hBA hAB
  refine ⟨h1, h2, ?_⟩
  have hkA : isKey pm A = true := by
    apply isKey_of_depsOfD_ne
    intro hc
    rw [hc] at hAB
    cases hAB
  exact loadOrderGo_cyclic pm (pm.map Prod.fst) [] A (mem_fst_of_isKey pm A hkA) h1
    (fun k hkm => dependencies_ok_or_cyclic pm hp k (isKey_of_mem_fst pm k hkm))

/-- C2 witness: the two-plugin mutual cycle. -/
theorem C2_mutual_cycle_detected_witness :
    (∃ s d, dependencies [("A", ["B"]), ("B", ["A"])] "A" true = .error (.cyclic s d)) ∧
    (∃ s d, dependencies [("A", ["B"]), ("B", ["A"])] "B" true = .error (.cyclic s d)) ∧
    (∃ s d, loadOrder [("A", ["B"]), ("B", ["A"])] = .error (.cyclic s d)) :=
  C2_mutual_cycle_detected [("A", ["B"]), ("B", ["A"])] "A" "B"
    (by decide) (by decide) (by decide)

/-- C2 counterexample: `A` and `B` depend on each other, but `A` also
declares the absent dependency `X` before `B`; resolving `A` then raises
the missing-plugin error, not the cyclic-dependency error the claim
demands (the two `ResolveErr` constructors are distinct). -/
theorem C2_counterexample :
    "B" ∈ depsOfD [("A", ["X", "B"]), ("B", ["A"])] "A" ∧
    "A" ∈ depsOfD [("A", ["X", "B"]), ("B", ["A"])] "B" ∧
    dependencies [("A", ["X", "B"]), ("B", ["A"])] "A" true = .error (.missing "X") := by
  decide

/-- C7 (amended): in an acyclic table, a plugin declaring a dependency
whose id is not a table key resolves to the missing-plugin error, and the
global load-order computation propagates an error instead of producing an
order, so the plugin appears in no load order. -/
theorem C7_missing_dependency (pm : PluginTable) (id d : String)
    (ha : Acyclic pm) (hk : isKey pm id = true)
    (hd : d ∈ depsOfD pm id) (hm : isKey pm d = false) :
    (∃ m, dependencies pm id true = .error (.missing m)) ∧
    ∃ e, loadOrder pm = .error e := by
  have h1 := dependencies_missing_of pm id d ha hk hd hm
  refine ⟨h1, ?_⟩
  obtain ⟨m, hm'⟩ := h1
  have hne : ∀ l, dependencies pm id true ≠ .ok l := by
    intro l hc
    rw [hm'] at hc
    cases hc
  exact loadOrderGo_stuck pm (pm.map Prod.fst) [] id (mem_fst_of_isKey pm id hk) hne


theorem pmSolo_acyclic : Acyclic pmSolo := by
  apply acyclic_of_rank pmSolo (fun s => if s = "A" then 1 else 0)
  intro a b hab
  rcases eq_or_ne a "A" with rfl | h1
  · have hz : depsOfD pmSolo "A" = ["X"] := by decide
    rw [depRel, hz] at hab
    have hb : b = "X" := by simpa using hab
    subst hb
    decide
  · have hz : depsOfD pmSolo a = [] := by
      unfold depsOfD findDeps pmSolo
      have e1 : (("A" : String) == a) = false := beq_eq_false_iff_ne.mpr (Ne.symm h1)
      simp [List.find?, e1]
    rw [depRel, hz] at hab
    cases hab

/-- C7 witness: a single plugin with one absent dependency. -/
theorem C7_missing_dependency_witness :
    (∃ m, dependencies pmSolo "A" true = .error (.missing m)) ∧
    ∃ e, loadOrder pmSolo = .error e :=
  C7_missing_dependency pmSolo "A" "X" pmSolo_acyclic
    (by decide) (by decide) (by decide)

/-- C7 counterexample: `A` declares the absent dependency `X`, but `A`
also participates in a cycle through its earlier dependency `B`; resolving
`A` then raises the cyclic-dependency error, not the missing-dependency
error the claim demands (the two `ResolveErr` constructors are distinct). -/
theorem C7_counterexample :
    isKey [("A", ["B", "X"]), ("B", ["A"])] "X" = false ∧
    "X" ∈ depsOfD [("A", ["B", "X"]), ("B", ["A"])] "A" ∧
    dependencies [("A", ["B", "X"]), ("B", ["A"])] "A" true = .error (.cyclic "B" "A") := by
  decide
